import Mathlib

/-!
Verification of the version-catalog and bisection engine of
`ckerr/electron-fiddle-runner` (files `versions.ts` and the runner file under
`src/src/versions.ts`).

The TypeScript source is shallowly embedded below:
pure functions become Lean functions, the bisection loop becomes a
fuel-indexed structural recursion on an explicit loop state (the fuel is an
upper bound on the number of iterations; the proofs show the loop always
reaches its natural exit before the fuel runs out), and JavaScript exceptions
(`TypeError` from reading a property of `undefined`, the `Invalid fiddle`
throw) become `Except` errors.

Version comparison (`compareVersions`) calls into the `semver` npm package
(`compareMain`, `comparePre`, the prerelease identifier comparison); those
library functions are embedded here following semver's documented and
implemented behaviour: identifiers are numeric or alphanumeric, numeric
identifiers compare numerically and sort before alphanumeric ones,
alphanumeric identifiers compare lexically, a longer identifier list sorts
after its prefix, and a version without prerelease sorts after any
prerelease version with the same numeric triple.
-/

/-! ## Three-way comparison groundwork -/

/-- Three-way comparison induced by a linear order; this is what JavaScript
ternary comparators such as semver's `compareIdentifiers` compute. -/
def cmpo {α : Type} [LinearOrder α] (a b : α) : Ordering :=
  if a < b then .lt else if a = b then .eq else .gt

theorem cmpo_eq_iff {α : Type} [LinearOrder α] {a b : α} :
    cmpo a b = .eq ↔ a = b := by
  unfold cmpo
  split_ifs with h1 h2
  · simp [ne_of_lt h1]
  · simp [h2]
  · have h3 : b < a := lt_of_le_of_ne (le_of_not_lt h1) (fun h => h2 h.symm)
    simp [ne_of_gt h3]

theorem cmpo_lt_iff {α : Type} [LinearOrder α] {a b : α} :
    cmpo a b = .lt ↔ a < b := by
  unfold cmpo
  split_ifs with h1 h2
  · simp [h1]
  · simp [h2]
  · simp [h1]

theorem cmpo_gt_iff {α : Type} [LinearOrder α] {a b : α} :
    cmpo a b = .gt ↔ b < a := by
  unfold cmpo
  split_ifs with h1 h2
  · simp [lt_asymm h1]
  · simp [h2]
  · have h3 : b < a := lt_of_le_of_ne (le_of_not_lt h1) (fun h => h2 h.symm)
    simp [h3]

theorem cmpo_self {α : Type} [LinearOrder α] (a : α) : cmpo a a = .eq := by
  simp [cmpo]

/-- The laws a comparator must satisfy for the bundle of order reasoning used
below: antisymmetry via `swap`, congruence of its equality kernel, and
transitivity of strict comparison. -/
structure CmpLaws {α : Type} (cmp : α → α → Ordering) : Prop where
  swap_eq : ∀ a b, (cmp a b).swap = cmp b a
  eq_left : ∀ {a b}, cmp a b = .eq → ∀ c, cmp a c = cmp b c
  lt_trans : ∀ {a b c}, cmp a b = .lt → cmp b c = .lt → cmp a c = .lt

theorem CmpLaws.eq_right {α : Type} {cmp : α → α → Ordering} (h : CmpLaws cmp)
    {a b : α} (hab : cmp a b = .eq) (c : α) : cmp c a = cmp c b := by
  have h1 := h.swap_eq a c
  have h2 := h.swap_eq b c
  rw [← h1, ← h2, h.eq_left hab c]

theorem ordering_swap_eq_iff {o o' : Ordering} : o.swap = o' ↔ o = o'.swap := by
  cases o <;> cases o' <;> simp [Ordering.swap]

theorem CmpLaws.gt_iff_swap_lt {α : Type} {cmp : α → α → Ordering}
    (h : CmpLaws cmp) {a b : α} : cmp a b = .gt ↔ cmp b a = .lt := by
  constructor
  · intro hab
    rw [← h.swap_eq a b, hab]; rfl
  · intro hba
    have := h.swap_eq b a
    rw [hba] at this
    exact this.symm

theorem then_eq_eq {x y : Ordering} : x.then y = .eq ↔ x = .eq ∧ y = .eq := by
  cases x <;> simp [Ordering.then]

theorem then_eq_lt {x y : Ordering} : x.then y = .lt ↔ x = .lt ∨ (x = .eq ∧ y = .lt) := by
  cases x <;> simp [Ordering.then]

theorem then_swap {x y : Ordering} : (x.then y).swap = x.swap.then y.swap := by
  cases x <;> cases y <;> rfl

theorem CmpLaws.thenLaws {α : Type} {c1 c2 : α → α → Ordering}
    (h1 : CmpLaws c1) (h2 : CmpLaws c2) :
    CmpLaws (fun a b => (c1 a b).then (c2 a b)) := by
  constructor
  · intro a b
    simp only [then_swap, h1.swap_eq, h2.swap_eq]
  · intro a b hab c
    simp only [then_eq_eq] at hab
    simp only [h1.eq_left hab.1 c, h2.eq_left hab.2 c]
  · intro a b c hab hbc
    simp only [then_eq_lt] at hab hbc ⊢
    rcases hab with hab | ⟨hab, hab2⟩
    · rcases hbc with hbc | ⟨hbc, hbc2⟩
      · exact Or.inl (h1.lt_trans hab hbc)
      · exact Or.inl (by rw [h1.eq_right hbc a] at hab; exact hab)
    · rcases hbc with hbc | ⟨hbc, hbc2⟩
      · exact Or.inl (by rw [h1.eq_left hab c]; exact hbc)
      · exact Or.inr ⟨by rw [h1.eq_left hab c]; exact hbc, h2.lt_trans hab2 hbc2⟩

theorem cmpoLaws {α : Type} [LinearOrder α] : CmpLaws (cmpo (α := α)) := by
  constructor
  · intro a b
    rcases lt_trichotomy a b with h | h | h
    · rw [cmpo_lt_iff.mpr h]
      exact (cmpo_gt_iff.mpr h).symm
    · subst h; rw [cmpo_self]; rfl
    · rw [cmpo_gt_iff.mpr h]
      exact (cmpo_lt_iff.mpr h).symm
  · intro a b hab c
    rw [cmpo_eq_iff.mp hab]
  · intro a b c hab hbc
    exact cmpo_lt_iff.mpr (lt_trans (cmpo_lt_iff.mp hab) (cmpo_lt_iff.mp hbc))

theorem CmpLaws.comap {α β : Type} {cmp : α → α → Ordering} (h : CmpLaws cmp)
    (f : β → α) : CmpLaws (fun a b => cmp (f a) (f b)) := by
  constructor
  · intro a b; exact h.swap_eq (f a) (f b)
  · intro a b hab c; exact h.eq_left hab (f c)
  · intro a b c hab hbc; exact h.lt_trans hab hbc

/-! ## The version data model (semver as used by `versions.ts`) -/

/-- A semver prerelease identifier: numeric, or alphanumeric.  semver parses
an all-digits identifier into a number, so in parsed versions an
alphanumeric identifier is never a pure digit string. -/
inductive PreId : Type where
  | num : Nat → PreId
  | str : String → PreId
deriving DecidableEq, Repr

/-- A parsed semantic version: numeric triple plus the ordered prerelease
identifier list.  Build metadata does not take part in comparison nor in the
canonical string, so it is not modelled. -/
structure Version : Type where
  major : Nat
  minor : Nat
  patch : Nat
  prerelease : List PreId
deriving DecidableEq, Repr

/-- semver's `compareIdentifiers`: numbers numerically, numbers before
strings, strings lexically. -/
def compareIdentifiers : PreId → PreId → Ordering
  | .num a, .num b => cmpo a b
  | .num _, .str _ => .lt
  | .str _, .num _ => .gt
  | .str a, .str b => cmpo a b

/-- Lexicographic comparison of two nonempty-position prerelease lists: the
element-by-element loop of semver's `comparePre`, where running out of
identifiers first sorts earlier. -/
def cmpIdList : List PreId → List PreId → Ordering
  | [], [] => .eq
  | [], _ :: _ => .lt
  | _ :: _, [] => .gt
  | a :: as, b :: bs => (compareIdentifiers a b).then (cmpIdList as bs)

/-- semver's `compareMain`: the (major, minor, patch) triple,
lexicographically. -/
def compareMain (a b : Version) : Ordering :=
  (cmpo a.major b.major).then ((cmpo a.minor b.minor).then (cmpo a.patch b.patch))

/-- semver's `comparePre`: a stable version (empty prerelease list) sorts
after any prerelease of the same triple; two prerelease lists compare
lexicographically. -/
def comparePre (a b : Version) : Ordering :=
  match a.prerelease, b.prerelease with
  | [], [] => .eq
  | [], _ :: _ => .gt
  | _ :: _, [] => .lt
  | a1 :: as, b1 :: bs => cmpIdList (a1 :: as) (b1 :: bs)

/-- The destructuring `const [prea] = a.prerelease; prea === 'nightly'` from
`compareVersions` (versions.ts line 52-55): true iff the first prerelease
identifier is the string literal "nightly". -/
def firstPreNightly (v : Version) : Bool :=
  match v.prerelease with
  | p :: _ => p == PreId.str "nightly"
  | [] => false

/-- Embedding of `compareVersions` (versions.ts lines 47-57): main triple
first; on a tie force `nightly` before other prerelease tags (and before
stable); otherwise fall back to semver prerelease precedence. -/
def compareVersions (a b : Version) : Ordering :=
  let l := compareMain a b
  if l ≠ .eq then l
  else if firstPreNightly a && !firstPreNightly b then .lt
  else if !firstPreNightly a && firstPreNightly b then .gt
  else comparePre a b

/-- Canonical string of a parsed version, as semver's `format` produces for
the `version` field: `major.minor.patch` plus `-` and the dot-joined
prerelease identifiers when present. -/
def preIdString : PreId → String
  | .num n => Nat.repr n
  | .str s => s

def versionString (v : Version) : String :=
  Nat.repr v.major ++ "." ++ Nat.repr v.minor ++ "." ++ Nat.repr v.patch ++
    (match v.prerelease with
     | [] => ""
     | l => "-" ++ String.intercalate "." (l.map preIdString))

/-! ## Laws of the version comparison -/

theorem compareIdentifiers_eq_iff {a b : PreId} :
    compareIdentifiers a b = .eq ↔ a = b := by
  cases a <;> cases b <;> simp [compareIdentifiers, cmpo_eq_iff]

theorem compareIdentifiersLaws : CmpLaws compareIdentifiers := by
  constructor
  · intro a b
    cases a <;> cases b <;> first | rfl | exact cmpoLaws.swap_eq _ _
  · intro a b hab c
    rw [compareIdentifiers_eq_iff.mp hab]
  · intro a b c hab hbc
    cases a <;> cases b <;> cases c <;>
      simp_all only [compareIdentifiers] <;>
      first
        | rfl
        | exact cmpoLaws.lt_trans hab hbc
        | exact Ordering.noConfusion hab
        | exact Ordering.noConfusion hbc

theorem cmpIdList_eq_iff : ∀ (l1 l2 : List PreId), cmpIdList l1 l2 = .eq ↔ l1 = l2
  | [], [] => by simp [cmpIdList]
  | [], _ :: _ => by simp [cmpIdList]
  | _ :: _, [] => by simp [cmpIdList]
  | a :: as, b :: bs => by
    rw [show cmpIdList (a :: as) (b :: bs)
          = (compareIdentifiers a b).then (cmpIdList as bs) from rfl,
      then_eq_eq, compareIdentifiers_eq_iff, cmpIdList_eq_iff as bs]
    simp

theorem cmpIdList_swap : ∀ (l1 l2 : List PreId), (cmpIdList l1 l2).swap = cmpIdList l2 l1
  | [], [] => rfl
  | [], _ :: _ => rfl
  | _ :: _, [] => rfl
  | a :: as, b :: bs => by
    show ((compareIdentifiers a b).then (cmpIdList as bs)).swap
      = (compareIdentifiers b a).then (cmpIdList bs as)
    rw [then_swap, compareIdentifiersLaws.swap_eq, cmpIdList_swap as bs]

theorem cmpIdList_lt_trans : ∀ (l1 l2 l3 : List PreId),
    cmpIdList l1 l2 = .lt → cmpIdList l2 l3 = .lt → cmpIdList l1 l3 = .lt
  | [], [], _, hab, _ => by simp [cmpIdList] at hab
  | [], _ :: _, [], _, hbc => by simp [cmpIdList] at hbc
  | [], _ :: _, _ :: _, _, _ => rfl
  | _ :: _, [], _, hab, _ => by simp [cmpIdList] at hab
  | _ :: _, _ :: _, [], _, hbc => by simp [cmpIdList] at hbc
  | a :: as, b :: bs, c :: cs, hab, hbc => by
    rw [show cmpIdList (a :: as) (b :: bs)
          = (compareIdentifiers a b).then (cmpIdList as bs) from rfl, then_eq_lt] at hab
    rw [show cmpIdList (b :: bs) (c :: cs)
          = (compareIdentifiers b c).then (cmpIdList bs cs) from rfl, then_eq_lt] at hbc
    rw [show cmpIdList (a :: as) (c :: cs)
          = (compareIdentifiers a c).then (cmpIdList as cs) from rfl, then_eq_lt]
    rcases hab with h1 | ⟨h1, h2⟩
    · rcases hbc with h3 | ⟨h3, h4⟩
      · exact Or.inl (compareIdentifiersLaws.lt_trans h1 h3)
      · exact Or.inl (by rw [compareIdentifiersLaws.eq_right h3 a] at h1; exact h1)
    · rcases hbc with h3 | ⟨h3, h4⟩
      · exact Or.inl (by rw [compareIdentifiersLaws.eq_left h1 c]; exact h3)
      · exact Or.inr ⟨by rw [compareIdentifiersLaws.eq_left h1 c]; exact h3,
          cmpIdList_lt_trans as bs cs h2 h4⟩

theorem cmpIdListLaws : CmpLaws cmpIdList := by
  constructor
  · exact cmpIdList_swap
  · intro a b hab c
    rw [(cmpIdList_eq_iff a b).mp hab]
  · intro a b c hab hbc
    exact cmpIdList_lt_trans a b c hab hbc

/-- Rank used to express semver's empty-prerelease-sorts-last rule as a
lexicographic component. -/
def stableRank (v : Version) : Nat :=
  match v.prerelease with
  | [] => 1
  | _ :: _ => 0

/-- Rank used to express the nightly-first rule as a lexicographic
component. -/
def nightlyRank (v : Version) : Nat :=
  if firstPreNightly v then 0 else 1

theorem comparePre_eq_rank (a b : Version) :
    comparePre a b
      = (cmpo (stableRank a) (stableRank b)).then (cmpIdList a.prerelease b.prerelease) := by
  rcases ha : a.prerelease with _ | ⟨x, xs⟩ <;> rcases hb : b.prerelease with _ | ⟨y, ys⟩ <;>
    simp [comparePre, stableRank, ha, hb, cmpIdList, cmpo, Ordering.then]

theorem CmpLaws.congr {α : Type} {c1 c2 : α → α → Ordering}
    (h : ∀ a b, c1 a b = c2 a b) (h2 : CmpLaws c2) : CmpLaws c1 := by
  constructor
  · intro a b
    rw [h a b, h b a]
    exact h2.swap_eq a b
  · intro a b hab c
    rw [h a b] at hab
    rw [h a c, h b c]
    exact h2.eq_left hab c
  · intro a b c hab hbc
    rw [h a b] at hab
    rw [h b c] at hbc
    rw [h a c]
    exact h2.lt_trans hab hbc

theorem comparePreLaws : CmpLaws comparePre :=
  CmpLaws.congr comparePre_eq_rank
    ((cmpoLaws.comap stableRank).thenLaws (cmpIdListLaws.comap (fun v => v.prerelease)))

theorem compareMainLaws : CmpLaws compareMain :=
  CmpLaws.congr (fun _ _ => rfl)
    ((cmpoLaws.comap (fun v : Version => v.major)).thenLaws
      ((cmpoLaws.comap (fun v : Version => v.minor)).thenLaws
        (cmpoLaws.comap (fun v : Version => v.patch))))

theorem compareVersions_eq_lex (a b : Version) :
    compareVersions a b
      = (compareMain a b).then
          ((cmpo (nightlyRank a) (nightlyRank b)).then (comparePre a b)) := by
  unfold compareVersions nightlyRank
  rcases h : compareMain a b with _ | _ | _ <;>
    cases hn : firstPreNightly a <;> cases hm : firstPreNightly b <;>
      simp [hn, hm, cmpo, Ordering.then]

theorem compareVersionsLaws : CmpLaws compareVersions :=
  CmpLaws.congr compareVersions_eq_lex
    (compareMainLaws.thenLaws ((cmpoLaws.comap nightlyRank).thenLaws comparePreLaws))

theorem compareMain_eq_iff {a b : Version} :
    compareMain a b = .eq ↔ (a.major = b.major ∧ a.minor = b.minor ∧ a.patch = b.patch) := by
  unfold compareMain
  simp [then_eq_eq, cmpo_eq_iff]

theorem comparePre_eq_iff {a b : Version} :
    comparePre a b = .eq ↔ a.prerelease = b.prerelease := by
  rw [comparePre_eq_rank, then_eq_eq, cmpo_eq_iff, cmpIdList_eq_iff]
  constructor
  · rintro ⟨_, h2⟩
    exact h2
  · intro h
    refine ⟨?_, h⟩
    unfold stableRank
    rw [h]

theorem compareVersions_eq_iff {a b : Version} :
    compareVersions a b = .eq ↔ a = b := by
  rw [compareVersions_eq_lex, then_eq_eq, then_eq_eq, compareMain_eq_iff, cmpo_eq_iff,
    comparePre_eq_iff]
  constructor
  · rintro ⟨⟨h1, h2, h3⟩, _, h4⟩
    cases a; cases b
    simp_all
  · rintro rfl
    simp

/-- The strict numeric order on (major, minor, patch) triples, spelled out. -/
def tripleLt (a b : Version) : Prop :=
  a.major < b.major
    ∨ (a.major = b.major
        ∧ (a.minor < b.minor ∨ (a.minor = b.minor ∧ a.patch < b.patch)))

theorem compareMain_lt_iff {a b : Version} : compareMain a b = .lt ↔ tripleLt a b := by
  unfold compareMain tripleLt
  simp [then_eq_lt, cmpo_lt_iff, cmpo_eq_iff]

/-- C4: the comparison function `compareVersions` is a strict total order over
versions consistent with numeric (major, minor, patch) ordering (its equality
kernel is version equality, it is antisymmetric under `Ordering.swap` and
transitive, and a strictly smaller numeric triple compares `lt`); on a tied
triple a version whose first prerelease identifier is "nightly" compares
strictly earlier than one whose first identifier is not, and when neither or
both are nightly the standard semver prerelease precedence `comparePre`
decides. -/
theorem compareVersions_strict_total_order :
    (∀ a b : Version, compareVersions a b = .eq ↔ a = b)
    ∧ (∀ a b : Version, (compareVersions a b).swap = compareVersions b a)
    ∧ (∀ a b c : Version,
        compareVersions a b = .lt → compareVersions b c = .lt → compareVersions a c = .lt)
    ∧ (∀ a b : Version, tripleLt a b → compareVersions a b = .lt)
    ∧ (∀ a b : Version, compareMain a b = .eq →
        firstPreNightly a = true → firstPreNightly b = false → compareVersions a b = .lt)
    ∧ (∀ a b : Version, compareMain a b = .eq →
        firstPreNightly a = firstPreNightly b → compareVersions a b = comparePre a b) := by
  refine ⟨?_, ?_, ?_, ?_, ?_, ?_⟩
  · intro a b
    exact compareVersions_eq_iff
  · intro a b
    exact compareVersionsLaws.swap_eq a b
  · intro a b c hab hbc
    exact compareVersionsLaws.lt_trans hab hbc
  · intro a b h
    rw [compareVersions_eq_lex, then_eq_lt]
    exact Or.inl (compareMain_lt_iff.mpr h)
  · intro a b h hn1 hn2
    simp [compareVersions, h, hn1, hn2]
  · intro a b h hn
    cases hv : firstPreNightly a <;> simp [compareVersions, h, hv, ← hn]

/-- Witness for C4: a concrete nightly version compares strictly below the
same-triple beta prerelease, obtained by applying the claim theorem. -/
theorem compareVersions_strict_total_order_witness :
    compareVersions ⟨1, 2, 3, [PreId.str "nightly"]⟩ ⟨1, 2, 3, [PreId.str "beta"]⟩ = .lt :=
  compareVersions_strict_total_order.2.2.2.2.1
    ⟨1, 2, 3, [PreId.str "nightly"]⟩ ⟨1, 2, 3, [PreId.str "beta"]⟩
    (by decide) (by decide) (by decide)

/-! ## The version catalog: `BaseVersions.inRange` (versions.ts lines 176-185) -/

/-- JavaScript `Array.prototype.findIndex`: index of the first element
satisfying the predicate, or -1 when there is none. -/
def jsFindIndex {α : Type} (p : α → Bool) : List α → Int
  | [] => -1
  | x :: xs =>
    if p x then 0
    else if jsFindIndex p xs < 0 then -1 else jsFindIndex p xs + 1

/-- ECMAScript `Array.prototype.slice(start, stop)`: a negative index counts
from the end of the array, then both indices are clamped to `[0, length]` and
the elements in `[start, stop)` are returned. -/
def jsSlice {α : Type} (l : List α) (start stop : Int) : List α :=
  let len : Int := l.length
  let s := if start < 0 then max (len + start) 0 else min start len
  let e := if stop < 0 then max (len + stop) 0 else min stop len
  (l.drop s.toNat).take (e.toNat - s.toNat)

/-- Embedding of `BaseVersions.inRange`: both arguments in canonical-string
form (the method first converts a `SemVer` argument to its `version` string),
`versions` being the catalog's materialized value list.  The two positions
are looked up with `findIndex`, swapped when out of order, and the inclusive
positional slice is returned. -/
def inRange (versions : List Version) (a b : String) : List Version :=
  let first := jsFindIndex (fun ver => versionString ver == a) versions
  let last := jsFindIndex (fun ver => versionString ver == b) versions
  if first > last then jsSlice versions last (first + 1)
  else jsSlice versions first (last + 1)

theorem jsFindIndex_none {α : Type} {p : α → Bool} :
    ∀ {l : List α}, (∀ x ∈ l, p x = false) → jsFindIndex p l = -1
  | [], _ => rfl
  | x :: xs, h => by
    have hx := h x (List.mem_cons_self x xs)
    have hxs := jsFindIndex_none (l := xs) (fun y hy => h y (List.mem_cons_of_mem x hy))
    simp [jsFindIndex, hx, hxs]

theorem jsFindIndex_unique {α : Type} {p : α → Bool} :
    ∀ {l : List α} {a : α}, a ∈ l → p a = true → (∀ x ∈ l, p x = true → x = a) →
      ∃ i : Nat, jsFindIndex p l = (i : Int) ∧ i < l.length ∧ l[i]? = some a
  | [], a, ha, _, _ => absurd ha (List.not_mem_nil a)
  | x :: xs, a, ha, hpa, huniq => by
    by_cases hx : p x = true
    · have hxa : x = a := huniq x (List.mem_cons_self x xs) hx
      exact ⟨0, by simp [jsFindIndex, hx], by simp, by simp [hxa]⟩
    · have hax : a ∈ xs := by
        rcases List.mem_cons.mp ha with h | h
        · exact absurd (h ▸ hpa) hx
        · exact h
      obtain ⟨i, hi1, hi2, hi3⟩ :=
        jsFindIndex_unique hax hpa (fun y hy hpy => huniq y (List.mem_cons_of_mem x hy) hpy)
      refine ⟨i + 1, ?_, by rw [List.length_cons]; omega, by simpa using hi3⟩
      have hr : jsFindIndex p (x :: xs) = jsFindIndex p xs + 1 := by
        rw [show jsFindIndex p (x :: xs)
              = if p x then 0 else if jsFindIndex p xs < 0 then -1 else jsFindIndex p xs + 1
            from rfl]
        rw [if_neg hx, hi1, if_neg (show ¬((i : Int) < 0) by omega)]
      rw [hr, hi1]
      push_cast
      ring

theorem jsSlice_nonneg {α : Type} (l : List α) (s e : Int) (hs : 0 ≤ s) (he : 0 ≤ e) :
    jsSlice l s e
      = (l.drop (min s.toNat l.length)).take (min e.toNat l.length - min s.toNat l.length) := by
  simp only [jsSlice]
  rw [if_neg (not_lt.mpr hs), if_neg (not_lt.mpr he)]
  have h1 : (min s (l.length : Int)).toNat = min s.toNat l.length := by omega
  have h2 : (min e (l.length : Int)).toNat = min e.toNat l.length := by omega
  rw [h1, h2]

theorem jsSlice_stop_zero {α : Type} (l : List α) (s : Int) : jsSlice l s 0 = [] := by
  simp only [jsSlice]
  rw [if_neg (by omega)]
  have h2 : (min (0 : Int) (l.length : Int)).toNat = 0 := by omega
  rw [h2]
  simp

theorem mem_jsSlice {α : Type} {l : List α} {lo hi i : Nat} {x : α}
    (hlo : lo ≤ i) (hhi : i ≤ hi) (hlen : i < l.length) (hx : l[i]? = some x) :
    x ∈ jsSlice l (lo : Int) ((hi : Int) + 1) := by
  rw [jsSlice_nonneg l _ _ (by omega) (by omega)]
  have h1 : ((lo : Int)).toNat = lo := by omega
  have h2 : (((hi : Int) + 1)).toNat = hi + 1 := by omega
  rw [h1, h2]
  have hminlo : min lo l.length = lo := by omega
  rw [hminlo]
  have hk : ((l.drop lo).take (min (hi + 1) l.length - lo))[i - lo]? = some x := by
    rw [List.getElem?_take]
    rw [if_pos (by omega)]
    rw [List.getElem?_drop]
    have hi' : lo + (i - lo) = i := by omega
    rw [hi', hx]
  exact List.getElem?_mem hk

/-- C5: the inclusive range query is commutative in its two arguments for all
inputs, and when the catalog has no duplicate canonical strings both known
endpoint versions are elements of the returned positional slice. -/
theorem inRange_comm_and_endpoints :
    (∀ (versions : List Version) (x y : String),
        inRange versions x y = inRange versions y x)
    ∧ (∀ (versions : List Version) (a b : Version),
        (versions.map versionString).Nodup → a ∈ versions → b ∈ versions →
          a ∈ inRange versions (versionString a) (versionString b)
          ∧ b ∈ inRange versions (versionString a) (versionString b)) := by
  constructor
  · intro versions x y
    simp only [inRange]
    rcases lt_trichotomy (jsFindIndex (fun ver => versionString ver == x) versions)
      (jsFindIndex (fun ver => versionString ver == y) versions) with h | h | h
    · rw [if_neg (by omega), if_pos (by omega)]
    · rw [if_neg (by omega), if_neg (by omega), h]
    · rw [if_pos (by omega), if_neg (by omega)]
  · intro versions a b hnd ha hb
    have huniqa : ∀ x ∈ versions, (versionString x == versionString a) = true → x = a := by
      intro x hx hxa
      exact List.inj_on_of_nodup_map hnd hx ha (by simpa using hxa)
    have huniqb : ∀ x ∈ versions, (versionString x == versionString b) = true → x = b := by
      intro x hx hxb
      exact List.inj_on_of_nodup_map hnd hx hb (by simpa using hxb)
    obtain ⟨ia, hia1, hia2, hia3⟩ := jsFindIndex_unique ha (by simp) huniqa
    obtain ⟨ib, hib1, hib2, hib3⟩ := jsFindIndex_unique hb (by simp) huniqb
    simp only [inRange, hia1, hib1]
    by_cases hcmp : (ia : Int) > (ib : Int)
    · rw [if_pos hcmp]
      exact ⟨mem_jsSlice (by omega) (by omega) hia2 hia3,
        mem_jsSlice (by omega) (by omega) hib2 hib3⟩
    · rw [if_neg hcmp]
      exact ⟨mem_jsSlice (by omega) (by omega) hia2 hia3,
        mem_jsSlice (by omega) (by omega) hib2 hib3⟩

/-- Witness for C5: the endpoint-membership half applied to a concrete
three-version catalog. -/
theorem inRange_comm_and_endpoints_witness :
    (⟨1, 0, 0, []⟩ : Version)
        ∈ inRange [⟨1, 0, 0, []⟩, ⟨2, 0, 0, []⟩, ⟨3, 0, 0, []⟩]
            (versionString ⟨1, 0, 0, []⟩) (versionString ⟨3, 0, 0, []⟩)
      ∧ (⟨3, 0, 0, []⟩ : Version)
        ∈ inRange [⟨1, 0, 0, []⟩, ⟨2, 0, 0, []⟩, ⟨3, 0, 0, []⟩]
            (versionString ⟨1, 0, 0, []⟩) (versionString ⟨3, 0, 0, []⟩) :=
  inRange_comm_and_endpoints.2
    [⟨1, 0, 0, []⟩, ⟨2, 0, 0, []⟩, ⟨3, 0, 0, []⟩] ⟨1, 0, 0, []⟩ ⟨3, 0, 0, []⟩
    (by decide) (by decide) (by decide)

/-- C10: `inRange` is total (it is a plain function into lists, so it cannot
throw), and when neither argument string matches any catalog entry the two
`findIndex` calls both return -1, no swap happens, and `slice(-1, 0)` yields
the empty list. -/
theorem inRange_total_unknown_empty (versions : List Version) (a b : String)
    (ha : ∀ v ∈ versions, versionString v ≠ a) (hb : ∀ v ∈ versions, versionString v ≠ b) :
    inRange versions a b = [] := by
  have hfa : jsFindIndex (fun ver => versionString ver == a) versions = -1 :=
    jsFindIndex_none (fun v hv => by simpa using ha v hv)
  have hfb : jsFindIndex (fun ver => versionString ver == b) versions = -1 :=
    jsFindIndex_none (fun v hv => by simpa using hb v hv)
  simp only [inRange, hfa, hfb]
  rw [if_neg (by omega)]
  have h0 : (-1 : Int) + 1 = 0 := by omega
  rw [h0]
  exact jsSlice_stop_zero versions (-1)

/-- Witness for C10: a two-entry catalog queried with two unknown strings
yields the empty list. -/
theorem inRange_total_unknown_empty_witness :
    inRange [⟨1, 0, 0, []⟩, ⟨2, 0, 0, []⟩] "bogus" "other" = [] :=
  inRange_total_unknown_empty [⟨1, 0, 0, []⟩, ⟨2, 0, 0, []⟩] "bogus" "other"
    (by decide) (by decide)

/-! ## Catalog load: `BaseVersions.setVersions` (versions.ts lines 91-107) -/

/-- The shapes the raw release document can take, as discriminated by the
type guards `isArrayOfVersionObjects` and `isArrayOfStrings` (versions.ts
lines 61-76): an array of records with a string `version` field (modelled by
those field values), an array of plain strings, or anything else (which is
only warned about). -/
inductive RawDoc : Type where
  | versionObjects (l : List String)
  | strings (l : List String)
  | other
deriving DecidableEq

/-- The version strings submitted to `semverParse` for each document shape;
for an unrecognized document nothing is parsed. -/
def rawStrings : RawDoc → List String
  | .versionObjects l => l
  | .strings l => l
  | .other => []

/-- JavaScript `Map.set` on an association list: an existing key keeps its
insertion position and gets the new value, a new key is appended. -/
def mapSet (m : List (String × Version)) (k : String) (v : Version) : List (String × Version) :=
  if m.any (fun p => p.1 == k) then m.map (fun p => if p.1 == k then (k, v) else p)
  else m ++ [(k, v)]

/-- Embedding of `BaseVersions.setVersions`: parse every entry, drop the
failures (`filter(Boolean)`), sort with the `compareVersions` comparator
(JavaScript `Array.prototype.sort` is stable, hence `mergeSort` with the
comparator's is-less-or-equal), then insert into the map keyed by the
canonical `version` string.  The resulting catalog value sequence is the
map's value list in insertion order. -/
def setVersions (parse : String → Option Version) (doc : RawDoc) : List Version :=
  let parsed : List (Option Version) := (rawStrings doc).map parse
  let semvers : List Version := parsed.filterMap id
  let sorted := semvers.mergeSort (fun a b => (compareVersions a b).isLE)
  (sorted.foldl (fun m sem => mapSet m (versionString sem) sem) []).map (fun p => p.2)

/-- A parse function is well-formed when two successfully parsed versions
with the same canonical string are equal; the spec's data model demands this
("Two versions are equal iff their canonical string forms match") and
semver's parser satisfies it (the canonical string is `format()`, which
`parse` round-trips). -/
def ParseWf (parse : String → Option Version) : Prop :=
  ∀ s t v w, parse s = some v → parse t = some w → versionString v = versionString w → v = w

theorem ordering_isLE_iff_ne_gt {o : Ordering} : o.isLE = true ↔ o ≠ .gt := by
  cases o <;> simp [Ordering.isLE]

theorem compareVersions_isLE_trans (a b c : Version)
    (h1 : (compareVersions a b).isLE = true) (h2 : (compareVersions b c).isLE = true) :
    (compareVersions a c).isLE = true := by
  rcases hab : compareVersions a b with _ | _ | _ <;>
    rcases hbc : compareVersions b c with _ | _ | _
  · rw [compareVersionsLaws.lt_trans hab hbc]; rfl
  · rw [compareVersionsLaws.eq_right hbc a] at hab; rw [hab]; rfl
  · rw [hbc] at h2; exact absurd h2 (by decide)
  · rw [compareVersionsLaws.eq_left hab c, hbc]; rfl
  · rw [compareVersionsLaws.eq_left hab c, hbc]; rfl
  · rw [hbc] at h2; exact absurd h2 (by decide)
  · rw [hab] at h1; exact absurd h1 (by decide)
  · rw [hab] at h1; exact absurd h1 (by decide)
  · rw [hab] at h1; exact absurd h1 (by decide)

theorem compareVersions_isLE_total (a b : Version) :
    ((compareVersions a b).isLE || (compareVersions b a).isLE) = true := by
  rcases h : compareVersions a b with _ | _ | _
  · rfl
  · rfl
  · rw [compareVersionsLaws.gt_iff_swap_lt.mp h]
    rfl

theorem mapSet_self {m : List (String × Version)} {k : String} {v : Version}
    (hmem : m.any (fun p => p.1 == k) = true)
    (hval : ∀ p ∈ m, p.1 = k → p.2 = v) :
    mapSet m k v = m := by
  unfold mapSet
  rw [if_pos hmem]
  have hcong : ∀ p ∈ m, (if p.1 == k then (k, v) else p) = p := by
    intro p hp
    by_cases h : p.1 = k
    · rw [if_pos (by simpa using h)]
      have hv := hval p hp h
      cases p
      simp_all
    · rw [if_neg (by simpa using h)]
  rw [List.map_congr_left hcong]
  simp

theorem setVersions_fold :
    ∀ (l : List Version) (m : List (String × Version)),
      (m.map Prod.fst).Nodup →
      (∀ p ∈ m, p.1 = versionString p.2) →
      (∀ x ∈ l, ∀ p ∈ m, versionString x = p.1 → x = p.2) →
      (∀ x ∈ l, ∀ y ∈ l, versionString x = versionString y → x = y) →
      ((l.foldl (fun acc sem => mapSet acc (versionString sem) sem) m).map Prod.fst).Nodup
      ∧ ((l.foldl (fun acc sem => mapSet acc (versionString sem) sem) m).map Prod.snd).Sublist
          ((m.map Prod.snd) ++ l)
      ∧ (∀ p ∈ l.foldl (fun acc sem => mapSet acc (versionString sem) sem) m,
          p.1 = versionString p.2)
  | [], m, hnd, hkeys, _, _ => by
    refine ⟨hnd, ?_, hkeys⟩
    simp
  | x :: l, m, hnd, hkeys, hcross, huniq => by
    rw [List.foldl_cons]
    by_cases hmem : m.any (fun p => p.1 == versionString x) = true
    · have hval : ∀ p ∈ m, p.1 = versionString x → p.2 = x := by
        intro p hp hpk
        exact (hcross x (List.mem_cons_self x l) p hp hpk.symm).symm
      rw [mapSet_self hmem hval]
      obtain ⟨c1, c2, c3⟩ := setVersions_fold l m hnd hkeys
        (fun y hy => hcross y (List.mem_cons_of_mem x hy))
        (fun y hy z hz => huniq y (List.mem_cons_of_mem x hy) z (List.mem_cons_of_mem x hz))
      refine ⟨c1, ?_, c3⟩
      exact c2.trans (List.Sublist.append_left (List.sublist_cons_self x l) (m.map Prod.snd))
    · have hnotin : versionString x ∉ m.map Prod.fst := by
        intro hin
        rcases List.mem_map.mp hin with ⟨p, hp, hpk⟩
        have hb : (p.1 == versionString x) = true := beq_iff_eq.mpr hpk
        have : m.any (fun q => q.1 == versionString x) = true :=
          List.any_eq_true.mpr ⟨p, hp, hb⟩
        exact hmem this
      have hms : mapSet m (versionString x) x = m ++ [(versionString x, x)] := by
        unfold mapSet
        rw [if_neg hmem]
      rw [hms]
      have hnd' : ((m ++ [(versionString x, x)]).map Prod.fst).Nodup := by
        rw [List.map_append]
        rw [List.nodup_append]
        refine ⟨hnd, by simp, ?_⟩
        intro y hy
        simp only [List.map_cons, List.map_nil, List.mem_singleton]
        intro hyx
        exact hnotin (hyx ▸ hy)
      have hkeys' : ∀ p ∈ m ++ [(versionString x, x)], p.1 = versionString p.2 := by
        intro p hp
        rcases List.mem_append.mp hp with h | h
        · exact hkeys p h
        · rcases List.mem_singleton.mp h with rfl
          rfl
      have hcross' : ∀ y ∈ l, ∀ p ∈ m ++ [(versionString x, x)], versionString y = p.1 → y = p.2 := by
        intro y hy p hp hyk
        rcases List.mem_append.mp hp with h | h
        · exact hcross y (List.mem_cons_of_mem x hy) p h hyk
        · rcases List.mem_singleton.mp h with rfl
          exact huniq y (List.mem_cons_of_mem x hy) x (List.mem_cons_self x l) (by simpa using hyk)
      obtain ⟨c1, c2, c3⟩ := setVersions_fold l (m ++ [(versionString x, x)]) hnd' hkeys' hcross'
        (fun y hy z hz => huniq y (List.mem_cons_of_mem x hy) z (List.mem_cons_of_mem x hz))
      refine ⟨c1, ?_, c3⟩
      have : ((m ++ [(versionString x, x)]).map Prod.snd) ++ l = (m.map Prod.snd) ++ (x :: l) := by
        rw [List.map_append]
        simp [List.append_assoc]
      rw [this] at c2
      exact c2

/-- C6: catalog load is a total function of the raw document (each entry is
parsed independently, entries that fail to parse are dropped, and an
unrecognized document shape merely yields an empty catalog — nothing
fails).  For any well-formed parse function the stored sequence has no
duplicate canonical strings, is fully sorted ascending under
`compareVersions`, and contains only successfully parsed document entries. -/
theorem setVersions_nodup_sorted (parse : String → Option Version) (doc : RawDoc)
    (hwf : ParseWf parse) :
    (((setVersions parse doc).map versionString).Nodup)
    ∧ ((setVersions parse doc).Pairwise (fun a b => compareVersions a b ≠ .gt))
    ∧ (∀ v ∈ setVersions parse doc, ∃ s ∈ rawStrings doc, parse s = some v) := by
  have hmem_semvers : ∀ v : Version,
      v ∈ ((rawStrings doc).map parse).filterMap id
        ↔ ∃ s ∈ rawStrings doc, parse s = some v := by
    intro v
    rw [List.filterMap_map]
    simp [List.mem_filterMap]
  have hperm := List.mergeSort_perm (((rawStrings doc).map parse).filterMap id)
    (fun a b => (compareVersions a b).isLE)
  have hpair := List.sorted_mergeSort
    (fun a b c ht1 ht2 => compareVersions_isLE_trans a b c ht1 ht2)
    (fun a b : Version => compareVersions_isLE_total a b)
    (((rawStrings doc).map parse).filterMap id)
  have huniq : ∀ x ∈ (((rawStrings doc).map parse).filterMap id).mergeSort
        (fun a b => (compareVersions a b).isLE),
      ∀ y ∈ (((rawStrings doc).map parse).filterMap id).mergeSort
        (fun a b => (compareVersions a b).isLE),
      versionString x = versionString y → x = y := by
    intro x hx y hy hxy
    rcases (hmem_semvers x).mp (hperm.mem_iff.mp hx) with ⟨s, hs, hps⟩
    rcases (hmem_semvers y).mp (hperm.mem_iff.mp hy) with ⟨t, ht, hpt⟩
    exact hwf s t x y hps hpt hxy
  obtain ⟨c1, c2, c3⟩ := setVersions_fold
    ((((rawStrings doc).map parse).filterMap id).mergeSort
      (fun a b => (compareVersions a b).isLE))
    [] (by simp) (by simp) (by intro x _ p hp; simp at hp) huniq
  simp only [List.map_nil, List.nil_append] at c2
  refine ⟨?_, ?_, ?_⟩
  · have hmapkeys :
        ((((((rawStrings doc).map parse).filterMap id).mergeSort
            (fun a b => (compareVersions a b).isLE)).foldl
              (fun acc sem => mapSet acc (versionString sem) sem) []).map
                (fun p => p.2)).map versionString
        = (((((rawStrings doc).map parse).filterMap id).mergeSort
            (fun a b => (compareVersions a b).isLE)).foldl
              (fun acc sem => mapSet acc (versionString sem) sem) []).map Prod.fst := by
      rw [List.map_map]
      exact List.map_congr_left (fun p hp => (c3 p hp).symm)
    show ((((((rawStrings doc).map parse).filterMap id).mergeSort
        (fun a b => (compareVersions a b).isLE)).foldl
          (fun acc sem => mapSet acc (versionString sem) sem) []).map
            (fun p => p.2)).map versionString |>.Nodup
    rw [hmapkeys]
    exact c1
  · have hpair2 := (List.Pairwise.sublist c2 hpair).imp
      (fun {a b} h => ordering_isLE_iff_ne_gt.mp h)
    exact hpair2
  · intro v hv
    have hv2 : v ∈ (((rawStrings doc).map parse).filterMap id).mergeSort
        (fun a b => (compareVersions a b).isLE) := by
      rcases List.mem_map.mp hv with ⟨p, hp, hpv⟩
      have : p.2 ∈ (((((rawStrings doc).map parse).filterMap id).mergeSort
          (fun a b => (compareVersions a b).isLE)).foldl
            (fun acc sem => mapSet acc (versionString sem) sem) []).map Prod.snd :=
        List.mem_map.mpr ⟨p, hp, rfl⟩
      exact hpv ▸ (c2.subset this)
    exact (hmem_semvers v).mp (hperm.mem_iff.mp hv2)

/-- A tiny concrete parse function used by the C6 witness: it recognizes the
single canonical string "1.0.0". -/
def parseDemo : String → Option Version :=
  fun s => if s = "1.0.0" then some ⟨1, 0, 0, []⟩ else none

/-- Witness for C6 at a document with a duplicate entry and an unparseable
entry. -/
theorem setVersions_nodup_sorted_witness :
    (((setVersions parseDemo (RawDoc.strings ["1.0.0", "junk", "1.0.0"])).map
        versionString).Nodup)
    ∧ ((setVersions parseDemo (RawDoc.strings ["1.0.0", "junk", "1.0.0"])).Pairwise
        (fun a b => compareVersions a b ≠ .gt))
    ∧ (∀ v ∈ setVersions parseDemo (RawDoc.strings ["1.0.0", "junk", "1.0.0"]),
        ∃ s ∈ rawStrings (RawDoc.strings ["1.0.0", "junk", "1.0.0"]), parseDemo s = some v) :=
  setVersions_nodup_sorted parseDemo (RawDoc.strings ["1.0.0", "junk", "1.0.0"])
    (by
      intro s t v w hv hw _
      unfold parseDemo at hv hw
      split_ifs at hv hw
      all_goals simp_all)

/-! ## Major-branch classification (versions.ts lines 78, 113-142) -/

/-- The `NUM_SUPPORTED_MAJORS` configuration constant (versions.ts line 78). -/
def numSupportedMajors : Nat := 4

/-- JavaScript `Set.add` on a list kept in insertion order: appends the
element when absent. -/
def setAdd (s : List Nat) (x : Nat) : List Nat :=
  if x ∈ s then s else s ++ [x]

/-- Embedding of the `prereleaseMajors` getter: one loop adds every major to
a `Set`, a second loop deletes the major of every stable (empty-prerelease)
release; `Set.delete` keeps the insertion order of the remaining elements. -/
def prereleaseMajors (versions : List Version) : List Nat :=
  versions.foldl (fun s v => if v.prerelease = [] then s.erase v.major else s)
    (versions.foldl (fun s v => setAdd s v.major) [])

/-- Embedding of the `stableMajors` getter: the majors of the stable
releases, in insertion order. -/
def stableMajors (versions : List Version) : List Nat :=
  versions.foldl (fun s v => if v.prerelease = [] then setAdd s v.major else s) []

/-- Embedding of the `supportedMajors` getter, `stableMajors.slice(-4)`: the
last (at most) `numSupportedMajors` entries. -/
def supportedMajors (versions : List Version) : List Nat :=
  (stableMajors versions).drop ((stableMajors versions).length - numSupportedMajors)

/-- Embedding of the `obsoleteMajors` getter, `stableMajors.slice(0, -4)`:
everything before the last `numSupportedMajors` entries. -/
def obsoleteMajors (versions : List Version) : List Nat :=
  (stableMajors versions).take ((stableMajors versions).length - numSupportedMajors)

theorem mem_setAdd {s : List Nat} {x y : Nat} : y ∈ setAdd s x ↔ y ∈ s ∨ y = x := by
  unfold setAdd
  split_ifs with h
  · constructor
    · exact fun hy => Or.inl hy
    · rintro (hy | rfl)
      · exact hy
      · exact h
  · simp

theorem setAdd_nodup {s : List Nat} {x : Nat} (h : s.Nodup) : (setAdd s x).Nodup := by
  unfold setAdd
  split_ifs with hx
  · exact h
  · rw [List.nodup_append]
    refine ⟨h, by simp, ?_⟩
    intro a ha hax
    rcases List.mem_singleton.mp hax with rfl
    exact hx ha

theorem setAdd_pairwise_lt {s : List Nat} {x : Nat} (h : s.Pairwise (· < ·))
    (hb : ∀ y ∈ s, y ≤ x) : (setAdd s x).Pairwise (· < ·) := by
  unfold setAdd
  split_ifs with hx
  · exact h
  · rw [List.pairwise_append]
    refine ⟨h, by simp, ?_⟩
    intro y hy b hb2
    rcases List.mem_singleton.mp hb2 with rfl
    exact lt_of_le_of_ne (hb y hy) (fun hyx => hx (hyx ▸ hy))

theorem stableFold_spec :
    ∀ (l : List Version) (acc : List Nat),
      (∀ x ∈ acc, ∀ v ∈ l, x ≤ v.major) →
      l.Pairwise (fun a b : Version => a.major ≤ b.major) →
      acc.Pairwise (· < ·) →
      ((l.foldl (fun s v => if v.prerelease = [] then setAdd s v.major else s) acc).Pairwise
          (· < ·)
      ∧ (∀ y, y ∈ l.foldl (fun s v => if v.prerelease = [] then setAdd s v.major else s) acc
          ↔ y ∈ acc ∨ ∃ v ∈ l, v.prerelease = [] ∧ v.major = y))
  | [], acc, _, _, hpa => by
    refine ⟨hpa, ?_⟩
    simp
  | v :: l, acc, hbound, hmono, hpa => by
    rw [List.foldl_cons]
    have hmono' : l.Pairwise (fun a b : Version => a.major ≤ b.major) :=
      (List.pairwise_cons.mp hmono).2
    have hhead : ∀ w ∈ l, v.major ≤ w.major := (List.pairwise_cons.mp hmono).1
    by_cases hst : v.prerelease = []
    · rw [if_pos hst]
      have hb' : ∀ x ∈ setAdd acc v.major, ∀ w ∈ l, x ≤ w.major := by
        intro x hx w hw
        rcases mem_setAdd.mp hx with hx | rfl
        · exact hbound x hx w (List.mem_cons_of_mem v hw)
        · exact hhead w hw
      have hpa' : (setAdd acc v.major).Pairwise (· < ·) :=
        setAdd_pairwise_lt hpa (fun y hy => hbound y hy v (List.mem_cons_self v l))
      obtain ⟨c1, c2⟩ := stableFold_spec l (setAdd acc v.major) hb' hmono' hpa'
      refine ⟨c1, ?_⟩
      intro y
      rw [c2 y, mem_setAdd]
      constructor
      · rintro ((hy | rfl) | ⟨w, hw, hws, hwy⟩)
        · exact Or.inl hy
        · exact Or.inr ⟨v, List.mem_cons_self v l, hst, rfl⟩
        · exact Or.inr ⟨w, List.mem_cons_of_mem v hw, hws, hwy⟩
      · rintro (hy | ⟨w, hw, hws, hwy⟩)
        · exact Or.inl (Or.inl hy)
        · rcases List.mem_cons.mp hw with rfl | hw2
          · exact Or.inl (Or.inr hwy.symm)
          · exact Or.inr ⟨w, hw2, hws, hwy⟩
    · rw [if_neg hst]
      obtain ⟨c1, c2⟩ := stableFold_spec l acc
        (fun x hx w hw => hbound x hx w (List.mem_cons_of_mem v hw)) hmono' hpa
      refine ⟨c1, ?_⟩
      intro y
      rw [c2 y]
      constructor
      · rintro (hy | ⟨w, hw, hws, hwy⟩)
        · exact Or.inl hy
        · exact Or.inr ⟨w, List.mem_cons_of_mem v hw, hws, hwy⟩
      · rintro (hy | ⟨w, hw, hws, hwy⟩)
        · exact Or.inl hy
        · rcases List.mem_cons.mp hw with rfl | hw2
          · exact absurd hws hst
          · exact Or.inr ⟨w, hw2, hws, hwy⟩

theorem majorsFold_spec :
    ∀ (l : List Version) (acc : List Nat), acc.Nodup →
      ((l.foldl (fun s v => setAdd s v.major) acc).Nodup
      ∧ (∀ y, y ∈ l.foldl (fun s v => setAdd s v.major) acc
          ↔ y ∈ acc ∨ ∃ v ∈ l, v.major = y))
  | [], acc, hnd => by
    refine ⟨hnd, ?_⟩
    simp
  | v :: l, acc, hnd => by
    rw [List.foldl_cons]
    obtain ⟨c1, c2⟩ := majorsFold_spec l (setAdd acc v.major) (setAdd_nodup hnd)
    refine ⟨c1, ?_⟩
    intro y
    rw [c2 y, mem_setAdd]
    constructor
    · rintro ((hy | rfl) | ⟨w, hw, hwy⟩)
      · exact Or.inl hy
      · exact Or.inr ⟨v, List.mem_cons_self v l, rfl⟩
      · exact Or.inr ⟨w, List.mem_cons_of_mem v hw, hwy⟩
    · rintro (hy | ⟨w, hw, hwy⟩)
      · exact Or.inl (Or.inl hy)
      · rcases List.mem_cons.mp hw with rfl | hw2
        · exact Or.inl (Or.inr hwy.symm)
        · exact Or.inr ⟨w, hw2, hwy⟩

theorem eraseFold_spec :
    ∀ (l : List Version) (acc : List Nat), acc.Nodup →
      ((l.foldl (fun s v => if v.prerelease = [] then s.erase v.major else s) acc).Nodup
      ∧ (∀ y, y ∈ l.foldl (fun s v => if v.prerelease = [] then s.erase v.major else s) acc
          ↔ y ∈ acc ∧ ∀ v ∈ l, v.prerelease = [] → v.major ≠ y))
  | [], acc, hnd => by
    refine ⟨hnd, ?_⟩
    simp
  | v :: l, acc, hnd => by
    rw [List.foldl_cons]
    by_cases hst : v.prerelease = []
    · rw [if_pos hst]
      obtain ⟨c1, c2⟩ := eraseFold_spec l (acc.erase v.major) (List.Nodup.erase _ hnd)
      refine ⟨c1, ?_⟩
      intro y
      rw [c2 y, hnd.mem_erase_iff]
      constructor
      · rintro ⟨⟨hne, hy⟩, hrest⟩
        refine ⟨hy, ?_⟩
        intro w hw hws
        rcases List.mem_cons.mp hw with rfl | hw2
        · exact fun hwy => hne hwy.symm
        · exact hrest w hw2 hws
      · rintro ⟨hy, hall⟩
        refine ⟨⟨?_, hy⟩, fun w hw hws => hall w (List.mem_cons_of_mem v hw) hws⟩
        intro hyv
        exact hall v (List.mem_cons_self v l) hst hyv.symm
    · rw [if_neg hst]
      obtain ⟨c1, c2⟩ := eraseFold_spec l acc hnd
      refine ⟨c1, ?_⟩
      intro y
      rw [c2 y]
      constructor
      · rintro ⟨hy, hrest⟩
        refine ⟨hy, ?_⟩
        intro w hw hws
        rcases List.mem_cons.mp hw with rfl | hw2
        · exact absurd hws hst
        · exact hrest w hw2 hws
      · rintro ⟨hy, hall⟩
        exact ⟨hy, fun w hw hws => hall w (List.mem_cons_of_mem v hw) hws⟩

theorem major_mono_of_cmp {a b : Version} (h : compareVersions a b ≠ .gt) :
    a.major ≤ b.major := by
  rcases hc : compareVersions a b with _ | _ | _
  · rw [compareVersions_eq_lex, then_eq_lt] at hc
    rcases hc with hm | ⟨hm, _⟩
    · rcases compareMain_lt_iff.mp hm with h1 | ⟨h1, _⟩
      · exact le_of_lt h1
      · exact le_of_eq h1
    · exact le_of_eq (compareMain_eq_iff.mp hm).1
  · rw [compareVersions_eq_iff.mp hc]
  · exact absurd hc h

/-- C7: for every catalog satisfying the load invariant (ascending under
`compareVersions`): `stableMajors` is exactly the set of majors having a
stable release (hence a subset of the majors present); `obsoleteMajors` and
`supportedMajors` partition `stableMajors` in order, `supportedMajors` holds
the highest at-most-4 stable majors in ascending order, every obsolete major
lying strictly below every supported one; and `prereleaseMajors` contains
exactly the majors all of whose known releases are prereleases. -/
theorem majors_classification (versions : List Version)
    (hsort : versions.Pairwise (fun a b => compareVersions a b ≠ .gt)) :
    (∀ m, m ∈ stableMajors versions ↔ ∃ v ∈ versions, v.prerelease = [] ∧ v.major = m)
    ∧ obsoleteMajors versions ++ supportedMajors versions = stableMajors versions
    ∧ (supportedMajors versions).length
        = min numSupportedMajors (stableMajors versions).length
    ∧ (supportedMajors versions).Pairwise (· < ·)
    ∧ (∀ x ∈ obsoleteMajors versions, ∀ y ∈ supportedMajors versions, x < y)
    ∧ (∀ m, m ∈ prereleaseMajors versions ↔
        ((∃ v ∈ versions, v.major = m)
          ∧ ∀ v ∈ versions, v.major = m → v.prerelease ≠ [])) := by
  have hmono : versions.Pairwise (fun a b : Version => a.major ≤ b.major) :=
    hsort.imp (fun {a b} h => major_mono_of_cmp h)
  obtain ⟨hpw, hmem⟩ := stableFold_spec versions [] (by simp) hmono (by simp)
  have hmemS : ∀ m, m ∈ stableMajors versions
      ↔ ∃ v ∈ versions, v.prerelease = [] ∧ v.major = m := by
    intro m
    unfold stableMajors
    rw [hmem m]
    simp
  have hpwS : (stableMajors versions).Pairwise (· < ·) := hpw
  have hpartition : obsoleteMajors versions ++ supportedMajors versions
      = stableMajors versions :=
    List.take_append_drop _ _
  refine ⟨hmemS, hpartition, ?_, ?_, ?_, ?_⟩
  · unfold supportedMajors
    rw [List.length_drop]
    unfold numSupportedMajors
    omega
  · exact List.Pairwise.sublist (List.drop_sublist _ _) hpwS
  · have hp2 : ((obsoleteMajors versions) ++ (supportedMajors versions)).Pairwise (· < ·) := by
      rw [hpartition]
      exact hpwS
    exact fun x hx y hy => (List.pairwise_append.mp hp2).2.2 x hx y hy
  · obtain ⟨hnd0, hmem0⟩ := majorsFold_spec versions [] (by simp)
    obtain ⟨_, hmem1⟩ :=
      eraseFold_spec versions (versions.foldl (fun s v => setAdd s v.major) []) hnd0
    intro m
    unfold prereleaseMajors
    rw [hmem1 m, hmem0 m]
    simp only [List.not_mem_nil, false_or]
    constructor
    · rintro ⟨hex, hall⟩
      exact ⟨hex, fun v hv hm hpre => hall v hv hpre hm⟩
    · rintro ⟨hex, hall⟩
      exact ⟨hex, fun v hv hpre hm => hall v hv hm hpre⟩

/-- Witness for C7: the partition equation applied to a concrete sorted
two-entry catalog with one stable and one prerelease-only major. -/
theorem majors_classification_witness :
    obsoleteMajors [⟨1, 0, 0, []⟩, ⟨2, 0, 0, [PreId.str "alpha"]⟩]
        ++ supportedMajors [⟨1, 0, 0, []⟩, ⟨2, 0, 0, [PreId.str "alpha"]⟩]
      = stableMajors [⟨1, 0, 0, []⟩, ⟨2, 0, 0, [PreId.str "alpha"]⟩] :=
  (majors_classification [⟨1, 0, 0, []⟩, ⟨2, 0, 0, [PreId.str "alpha"]⟩] (by decide)).2.1

/-! ## The bisection engine: `Runner.bisect` (runner file, lines 565-665 of
`src/src/versions.ts`) -/

/-- The classification `Runner.run` resolves with (runner lines 552-562):
exit code 0, exit code 1, any other exit code (`test_error`, an abnormal
exit), or failure to start the process at all (`system_error`, a launch
failure). -/
inductive TestStatus : Type where
  | test_passed
  | test_failed
  | test_error
  | system_error
deriving DecidableEq, Repr

/-- The status component of `BisectResult` (runner lines 357-360). -/
inductive BisectStatus : Type where
  | bisect_succeeded
  | test_error
  | system_error
deriving DecidableEq, Repr

/-- `BisectResult`: the optional range carries the canonical version strings
`versions[left].version` and `versions[right].version`. -/
structure BisectResult : Type where
  range : Option (String × String)
  status : BisectStatus
deriving DecidableEq, Repr

/-- JavaScript exceptions `bisect` can surface as a rejected promise:
a TypeError from reading a property of `undefined`, and the
`Invalid fiddle` throw (runner line 581). -/
inductive JsError : Type where
  | typeError
  | invalidFiddle
deriving DecidableEq, Repr

deriving instance DecidableEq for Except

/-- The loop state of `bisect` (runner lines 598-602): the window bounds,
the sparse `results` array (an unset slot reads as `undefined`, i.e.
`none`), the `result` variable holding the most recent run's classification,
and the `testOrder` log. -/
structure LoopState : Type where
  left : Nat
  right : Nat
  results : Nat → Option TestStatus
  result : Option TestStatus
  testOrder : List Nat

/-- The midpoint `Math.round(left + (right - left) / 2)` (runner line 604):
for naturals `left < right` the float computation is exact and `Math.round`
rounds the possible half up, giving `left + (right - left + 1) / 2` in
integer arithmetic. -/
def jsMidpoint (left right : Nat) : Nat :=
  left + (right - left + 1) / 2

/-- The `while (left + 1 < right)` loop of `bisect` (runner lines 603-622),
structurally recursive on a fuel that bounds the number of iterations; with
`fuel ≥ right - left` the loop always reaches its natural exit (each pass or
fail outcome strictly shrinks the window, proved below), so the fuel never
cuts a run short.  The oracle `outcome` abstracts
`await this.run(versions[mid].version, fiddle, opts)`: one classified test
execution for the version at index `mid` (always in bounds while the loop
runs, by the invariants below, so the `versions[mid]` read cannot throw). -/
def bisectLoop (outcome : Nat → TestStatus) : Nat → LoopState → LoopState
  | 0, s => s
  | fuel + 1, s =>
    if s.left + 1 < s.right then
      let mid := jsMidpoint s.left s.right
      let r := outcome mid
      let results := fun j => if j = mid then some r else s.results j
      let testOrder := s.testOrder ++ [mid]
      match r with
      | .test_passed => bisectLoop outcome fuel ⟨mid, s.right, results, some r, testOrder⟩
      | .test_failed => bisectLoop outcome fuel ⟨s.left, mid, results, some r, testOrder⟩
      | .test_error => ⟨s.left, s.right, results, some r, testOrder⟩
      | .system_error => ⟨s.left, s.right, results, some r, testOrder⟩
    else s

/-- The non-success returns of `bisect` (runner lines 661-664):
`result?.status` when it is an error classification, otherwise a generic
`system_error`. -/
def bisectNonSuccess (s : LoopState) : Except JsError BisectResult :=
  match s.result with
  | some .test_error => .ok ⟨none, .test_error⟩
  | some .system_error => .ok ⟨none, .system_error⟩
  | _ => .ok ⟨none, .system_error⟩

/-- The code after the loop (runner lines 636-664): evaluate
`results[left].status === 'test_passed' && results[right].status ===
'test_failed'` in JavaScript order — reading `.status` of an unset slot
throws a TypeError, `&&` short-circuits — then build the success result from
`versions[left].version` and `versions[right].version` (a TypeError again if
an index were out of bounds), or fall through to the error returns. -/
def bisectFinish (versions : List Version) (s : LoopState) : Except JsError BisectResult :=
  match s.results s.left with
  | none => .error .typeError
  | some rl =>
    if rl = .test_passed then
      match s.results s.right with
      | none => .error .typeError
      | some rr =>
        if rr = .test_failed then
          match versions[s.left]?, versions[s.right]? with
          | some vl, some vr =>
            .ok ⟨some (versionString vl, versionString vr), .bisect_succeeded⟩
          | _, _ => .error .typeError
        else bisectNonSuccess s
    else bisectNonSuccess s

/-- The initial loop state (runner lines 598-602): `left = 0`,
`right = versions.length - 1`.  For an empty slice JavaScript computes
`right = -1`; the loop guard fails and the final `results[0]` read throws
either way, so the natural-number clamp to 0 is observationally identical. -/
def initState (versions : List Version) : LoopState :=
  ⟨0, versions.length - 1, fun _ => none, none, []⟩

/-- The loop state after the `while` loop of one `bisect` call. -/
def finalState (versions : List Version) (outcome : Nat → TestStatus) : LoopState :=
  bisectLoop outcome versions.length (initState versions)

/-- Embedding of `Runner.bisect` over the already-resolved slice.  Payload
resolution is modelled by `bisectCounting` below; log writes have no effect
on control flow and are omitted. -/
def bisect (versions : List Version) (outcome : Nat → TestStatus) :
    Except JsError BisectResult :=
  bisectFinish versions (finalState versions outcome)

/-- `Runner.bisect` from the two endpoint identifiers: the slice is the
catalog's inclusive range (runner line 579). -/
def bisectFull (catalog : List Version) (a b : String) (outcome : Nat → TestStatus) :
    Except JsError BisectResult :=
  bisect (inRange catalog a b) outcome

/-- An inconclusive classification: abnormal exit or launch failure. -/
def errClass (e : TestStatus) : Prop := e = .test_error ∨ e = .system_error

instance (e : TestStatus) : Decidable (errClass e) := by
  unfold errClass
  infer_instance

theorem jsMidpoint_bounds {l r : Nat} (h : l + 1 < r) :
    l < jsMidpoint l r ∧ jsMidpoint l r < r := by
  unfold jsMidpoint
  omega

theorem bisectLoop_noop {outcome : Nat → TestStatus} {s : LoopState}
    (h : ¬ (s.left + 1 < s.right)) : ∀ fuel, bisectLoop outcome fuel s = s
  | 0 => rfl
  | fuel + 1 => by
    simp only [bisectLoop]
    rw [if_neg h]

/-- The invariant of the bisection loop state, relative to the slice length
and the outcome oracle. -/
structure LoopInv (len : Nat) (outcome : Nat → TestStatus) (s : LoopState) : Prop where
  left_le : s.left ≤ s.right
  right_le : s.right ≤ len - 1
  leftOk : s.left = 0 ∨ s.results s.left = some .test_passed
  rightOk : s.right = len - 1 ∨ s.results s.right = some .test_failed
  resultsEq : ∀ j, s.results j = if j ∈ s.testOrder then some (outcome j) else none
  orderBounds : ∀ j ∈ s.testOrder, 0 < j ∧ j < len - 1
  orderNodup : s.testOrder.Nodup
  resultEq : s.result = s.testOrder.getLast?.map outcome

/-- While the loop runs, every previously tested index lies at or outside
the current window bounds (it was strictly inside an older window and became
a bound, or lies beyond the current bounds). -/
def OrderOutside (s : LoopState) : Prop :=
  ∀ j ∈ s.testOrder, j ≤ s.left ∨ s.right ≤ j

/-- What holds of the loop's final state `f` reached from `s`. -/
structure LoopPost (len : Nat) (outcome : Nat → TestStatus) (s f : LoopState) : Prop where
  inv : LoopInv len outcome f
  mono : ∃ t, f.testOrder = s.testOrder ++ t
  exitCond : ¬ (f.left + 1 < f.right) ∨ ∃ e, f.result = some e ∧ errClass e
  errLast : ∀ j ∈ f.testOrder, errClass (outcome j) → f.testOrder.getLast? = some j

theorem step_facts {len : Nat} {outcome : Nat → TestStatus} {s : LoopState}
    (hinv : LoopInv len outcome s) (hout : OrderOutside s) (hlr : s.left + 1 < s.right)
    {c : TestStatus} (hc : outcome (jsMidpoint s.left s.right) = c) :
    (∀ j, (if j = jsMidpoint s.left s.right then some c else s.results j)
        = if j ∈ s.testOrder ++ [jsMidpoint s.left s.right] then some (outcome j) else none)
    ∧ (s.testOrder ++ [jsMidpoint s.left s.right]).Nodup
    ∧ (∀ j ∈ s.testOrder ++ [jsMidpoint s.left s.right], 0 < j ∧ j < len - 1)
    ∧ some c = (s.testOrder ++ [jsMidpoint s.left s.right]).getLast?.map outcome := by
  have hm1 := (jsMidpoint_bounds hlr).1
  have hm2 := (jsMidpoint_bounds hlr).2
  have hmidnotin : jsMidpoint s.left s.right ∉ s.testOrder := by
    intro hin
    rcases hout _ hin with h | h
    · omega
    · omega
  refine ⟨?_, ?_, ?_, ?_⟩
  · intro j
    by_cases hj : j = jsMidpoint s.left s.right
    · subst hj
      rw [if_pos rfl, if_pos (by simp), hc]
    · rw [if_neg hj, hinv.resultsEq j]
      have hmem : (j ∈ s.testOrder ++ [jsMidpoint s.left s.right]) ↔ j ∈ s.testOrder := by
        simp [List.mem_append, hj]
      by_cases hjm : j ∈ s.testOrder
      · rw [if_pos hjm, if_pos (hmem.mpr hjm)]
      · rw [if_neg hjm, if_neg (fun hcon => hjm (hmem.mp hcon))]
  · rw [List.nodup_append]
    refine ⟨hinv.orderNodup, by simp, ?_⟩
    intro a ha hamem
    rcases List.mem_singleton.mp hamem with rfl
    exact hmidnotin ha
  · intro j hj
    rcases List.mem_append.mp hj with h | h
    · exact hinv.orderBounds j h
    · rcases List.mem_singleton.mp h with rfl
      have := hinv.right_le
      constructor
      · omega
      · omega
  · rw [List.getLast?_concat]
    simp [hc]

theorem bisectLoop_master (outcome : Nat → TestStatus) (len : Nat) :
    ∀ (fuel : Nat) (s : LoopState), LoopInv len outcome s → OrderOutside s →
      s.right - s.left ≤ fuel → (∀ j ∈ s.testOrder, ¬ errClass (outcome j)) →
      LoopPost len outcome s (bisectLoop outcome fuel s) := by
  intro fuel
  induction fuel with
  | zero =>
    intro s hinv hout hfuel hnoerr
    show LoopPost len outcome s s
    refine ⟨hinv, ⟨[], by simp⟩, Or.inl (by omega), ?_⟩
    intro j hj he
    exact absurd he (hnoerr j hj)
  | succ n ih =>
    intro s hinv hout hfuel hnoerr
    by_cases hlr : s.left + 1 < s.right
    · have hm1 := (jsMidpoint_bounds hlr).1
      have hm2 := (jsMidpoint_bounds hlr).2
      have hrl := hinv.right_le
      rcases hr : outcome (jsMidpoint s.left s.right) with _ | _ | _ | _
      · -- test_passed: left moves to mid
        simp only [bisectLoop]
        rw [if_pos hlr, hr]
        obtain ⟨hres, hnd, hbnd, hlast⟩ := step_facts hinv hout hlr hr
        have hinv' : LoopInv len outcome
            ⟨jsMidpoint s.left s.right, s.right,
              fun j => if j = jsMidpoint s.left s.right then some TestStatus.test_passed
                else s.results j,
              some TestStatus.test_passed, s.testOrder ++ [jsMidpoint s.left s.right]⟩ := by
          refine ⟨le_of_lt hm2, hinv.right_le, ?_, ?_, fun j => hres j, hbnd, hnd, hlast⟩
          · right
            show (if jsMidpoint s.left s.right = jsMidpoint s.left s.right
                then some TestStatus.test_passed else s.results (jsMidpoint s.left s.right))
              = some TestStatus.test_passed
            rw [if_pos rfl]
          · rcases hinv.rightOk with h | h
            · exact Or.inl h
            · right
              show (if s.right = jsMidpoint s.left s.right
                  then some TestStatus.test_passed else s.results s.right)
                = some TestStatus.test_failed
              rw [if_neg (by omega)]
              exact h
        have hout' : OrderOutside
            ⟨jsMidpoint s.left s.right, s.right,
              fun j => if j = jsMidpoint s.left s.right then some TestStatus.test_passed
                else s.results j,
              some TestStatus.test_passed, s.testOrder ++ [jsMidpoint s.left s.right]⟩ := by
          intro j hj
          show j ≤ jsMidpoint s.left s.right ∨ s.right ≤ j
          rcases List.mem_append.mp hj with h | h
          · rcases hout j h with h2 | h2
            · exact Or.inl (by have := hinv.left_le; omega)
            · exact Or.inr h2
          · rcases List.mem_singleton.mp h with rfl
            exact Or.inl (le_refl _)
        have hnoerr' : ∀ j ∈ s.testOrder ++ [jsMidpoint s.left s.right],
            ¬ errClass (outcome j) := by
          intro j hj
          rcases List.mem_append.mp hj with h | h
          · exact hnoerr j h
          · rcases List.mem_singleton.mp h with rfl
            simp [errClass, hr]
        have hpost := ih
          ⟨jsMidpoint s.left s.right, s.right,
            fun j => if j = jsMidpoint s.left s.right then some TestStatus.test_passed
              else s.results j,
            some TestStatus.test_passed, s.testOrder ++ [jsMidpoint s.left s.right]⟩
          hinv' hout' (show s.right - jsMidpoint s.left s.right ≤ n by omega) hnoerr'
        refine ⟨hpost.inv, ?_, hpost.exitCond, hpost.errLast⟩
        obtain ⟨t, ht⟩ := hpost.mono
        exact ⟨jsMidpoint s.left s.right :: t, by rw [ht]; simp⟩
      · -- test_failed: right moves to mid
        simp only [bisectLoop]
        rw [if_pos hlr, hr]
        obtain ⟨hres, hnd, hbnd, hlast⟩ := step_facts hinv hout hlr hr
        have hinv' : LoopInv len outcome
            ⟨s.left, jsMidpoint s.left s.right,
              fun j => if j = jsMidpoint s.left s.right then some TestStatus.test_failed
                else s.results j,
              some TestStatus.test_failed, s.testOrder ++ [jsMidpoint s.left s.right]⟩ := by
          refine ⟨le_of_lt hm1, show jsMidpoint s.left s.right ≤ len - 1 by omega, ?_, ?_,
            fun j => hres j, hbnd, hnd, hlast⟩
          · rcases hinv.leftOk with h | h
            · exact Or.inl h
            · right
              show (if s.left = jsMidpoint s.left s.right
                  then some TestStatus.test_failed else s.results s.left)
                = some TestStatus.test_passed
              rw [if_neg (by omega)]
              exact h
          · right
            show (if jsMidpoint s.left s.right = jsMidpoint s.left s.right
                then some TestStatus.test_failed else s.results (jsMidpoint s.left s.right))
              = some TestStatus.test_failed
            rw [if_pos rfl]
        have hout' : OrderOutside
            ⟨s.left, jsMidpoint s.left s.right,
              fun j => if j = jsMidpoint s.left s.right then some TestStatus.test_failed
                else s.results j,
              some TestStatus.test_failed, s.testOrder ++ [jsMidpoint s.left s.right]⟩ := by
          intro j hj
          show j ≤ s.left ∨ jsMidpoint s.left s.right ≤ j
          rcases List.mem_append.mp hj with h | h
          · rcases hout j h with h2 | h2
            · exact Or.inl h2
            · exact Or.inr (by omega)
          · rcases List.mem_singleton.mp h with rfl
            exact Or.inr (le_refl _)
        have hnoerr' : ∀ j ∈ s.testOrder ++ [jsMidpoint s.left s.right],
            ¬ errClass (outcome j) := by
          intro j hj
          rcases List.mem_append.mp hj with h | h
          · exact hnoerr j h
          · rcases List.mem_singleton.mp h with rfl
            simp [errClass, hr]
        have hpost := ih
          ⟨s.left, jsMidpoint s.left s.right,
            fun j => if j = jsMidpoint s.left s.right then some TestStatus.test_failed
              else s.results j,
            some TestStatus.test_failed, s.testOrder ++ [jsMidpoint s.left s.right]⟩
          hinv' hout' (show jsMidpoint s.left s.right - s.left ≤ n by omega) hnoerr'
        refine ⟨hpost.inv, ?_, hpost.exitCond, hpost.errLast⟩
        obtain ⟨t, ht⟩ := hpost.mono
        exact ⟨jsMidpoint s.left s.right :: t, by rw [ht]; simp⟩
      · -- test_error: the loop stops at once
        simp only [bisectLoop]
        rw [if_pos hlr, hr]
        obtain ⟨hres, hnd, hbnd, hlast⟩ := step_facts hinv hout hlr hr
        refine ⟨?_, ⟨[jsMidpoint s.left s.right], rfl⟩, ?_, ?_⟩
        · refine ⟨hinv.left_le, hinv.right_le, ?_, ?_, fun j => hres j, hbnd, hnd, hlast⟩
          · rcases hinv.leftOk with h | h
            · exact Or.inl h
            · right
              show (if s.left = jsMidpoint s.left s.right
                  then some TestStatus.test_error else s.results s.left)
                = some TestStatus.test_passed
              rw [if_neg (by omega)]
              exact h
          · rcases hinv.rightOk with h | h
            · exact Or.inl h
            · right
              show (if s.right = jsMidpoint s.left s.right
                  then some TestStatus.test_error else s.results s.right)
                = some TestStatus.test_failed
              rw [if_neg (by omega)]
              exact h
        · exact Or.inr ⟨TestStatus.test_error, rfl, Or.inl rfl⟩
        · intro j hj he
          rcases List.mem_append.mp hj with h | h
          · exact absurd he (hnoerr j h)
          · rcases List.mem_singleton.mp h with rfl
            exact List.getLast?_concat _
      · -- system_error: the loop stops at once
        simp only [bisectLoop]
        rw [if_pos hlr, hr]
        obtain ⟨hres, hnd, hbnd, hlast⟩ := step_facts hinv hout hlr hr
        refine ⟨?_, ⟨[jsMidpoint s.left s.right], rfl⟩, ?_, ?_⟩
        · refine ⟨hinv.left_le, hinv.right_le, ?_, ?_, fun j => hres j, hbnd, hnd, hlast⟩
          · rcases hinv.leftOk with h | h
            · exact Or.inl h
            · right
              show (if s.left = jsMidpoint s.left s.right
                  then some TestStatus.system_error else s.results s.left)
                = some TestStatus.test_passed
              rw [if_neg (by omega)]
              exact h
          · rcases hinv.rightOk with h | h
            · exact Or.inl h
            · right
              show (if s.right = jsMidpoint s.left s.right
                  then some TestStatus.system_error else s.results s.right)
                = some TestStatus.test_failed
              rw [if_neg (by omega)]
              exact h
        · exact Or.inr ⟨TestStatus.system_error, rfl, Or.inr rfl⟩
        · intro j hj he
          rcases List.mem_append.mp hj with h | h
          · exact absurd he (hnoerr j h)
          · rcases List.mem_singleton.mp h with rfl
            exact List.getLast?_concat _
    · rw [bisectLoop_noop hlr (n + 1)]
      refine ⟨hinv, ⟨[], by simp⟩, Or.inl hlr, ?_⟩
      intro j hj he
      exact absurd he (hnoerr j hj)

theorem finalState_post (versions : List Version) (outcome : Nat → TestStatus) :
    LoopPost versions.length outcome (initState versions) (finalState versions outcome) := by
  refine bisectLoop_master outcome versions.length versions.length (initState versions)
    ⟨Nat.zero_le _, le_refl _, Or.inl rfl, Or.inl rfl, by intro j; simp [initState],
      by intro j hj; simp [initState] at hj, List.nodup_nil, rfl⟩
    (by intro j hj; simp [initState] at hj)
    (by show versions.length - 1 - 0 ≤ versions.length; omega)
    (by intro j hj; simp [initState] at hj)

theorem finalState_left_of_some {versions : List Version} {outcome : Nat → TestStatus}
    {x : TestStatus}
    (h : (finalState versions outcome).results (finalState versions outcome).left = some x) :
    x = .test_passed ∧ 0 < (finalState versions outcome).left
      ∧ (finalState versions outcome).left < versions.length - 1 := by
  have post := finalState_post versions outcome
  have hres := post.inv.resultsEq (finalState versions outcome).left
  by_cases hmem : (finalState versions outcome).left ∈ (finalState versions outcome).testOrder
  · obtain ⟨hb1, hb2⟩ := post.inv.orderBounds _ hmem
    rcases post.inv.leftOk with h0 | hp
    · exact absurd hb1 (by omega)
    · rw [h] at hp
      exact ⟨Option.some_inj.mp hp, hb1, hb2⟩
  · rw [if_neg hmem] at hres
    rw [h] at hres
    exact absurd hres (by simp)

theorem finalState_right_of_some {versions : List Version} {outcome : Nat → TestStatus}
    {x : TestStatus}
    (h : (finalState versions outcome).results (finalState versions outcome).right = some x) :
    x = .test_failed ∧ 0 < (finalState versions outcome).right
      ∧ (finalState versions outcome).right < versions.length - 1 := by
  have post := finalState_post versions outcome
  have hres := post.inv.resultsEq (finalState versions outcome).right
  by_cases hmem : (finalState versions outcome).right ∈ (finalState versions outcome).testOrder
  · obtain ⟨hb1, hb2⟩ := post.inv.orderBounds _ hmem
    rcases post.inv.rightOk with h0 | hp
    · exact absurd hb2 (by omega)
    · rw [h] at hp
      exact ⟨Option.some_inj.mp hp, hb1, hb2⟩
  · rw [if_neg hmem] at hres
    rw [h] at hres
    exact absurd hres (by simp)

theorem bisect_cases (versions : List Version) (outcome : Nat → TestStatus) :
    (∃ vl vr, versions[(finalState versions outcome).left]? = some vl
      ∧ versions[(finalState versions outcome).right]? = some vr
      ∧ (finalState versions outcome).results (finalState versions outcome).left
          = some .test_passed
      ∧ (finalState versions outcome).results (finalState versions outcome).right
          = some .test_failed
      ∧ bisect versions outcome
          = .ok ⟨some (versionString vl, versionString vr), .bisect_succeeded⟩)
    ∨ (¬ ((finalState versions outcome).results (finalState versions outcome).left
          = some .test_passed
        ∧ (finalState versions outcome).results (finalState versions outcome).right
          = some .test_failed)
      ∧ bisect versions outcome = .error .typeError) := by
  rcases hcl : (finalState versions outcome).results (finalState versions outcome).left
    with _ | x
  · refine Or.inr ⟨by simp [hcl], ?_⟩
    simp [bisect, bisectFinish, hcl]
  · obtain ⟨hx, hl1, hl2⟩ := finalState_left_of_some hcl
    subst hx
    rcases hcr : (finalState versions outcome).results (finalState versions outcome).right
      with _ | y
    · refine Or.inr ⟨by simp [hcr], ?_⟩
      simp [bisect, bisectFinish, hcl, hcr]
    · obtain ⟨hy, hr1, hr2⟩ := finalState_right_of_some hcr
      subst hy
      have hllen : (finalState versions outcome).left < versions.length := by omega
      have hrlen : (finalState versions outcome).right < versions.length := by omega
      refine Or.inl ⟨versions[(finalState versions outcome).left],
        versions[(finalState versions outcome).right],
        List.getElem?_eq_getElem hllen, List.getElem?_eq_getElem hrlen, rfl, rfl, ?_⟩
      simp [bisect, bisectFinish, hcl, hcr, List.getElem?_eq_getElem hllen,
        List.getElem?_eq_getElem hrlen]

/-- C1 (amended): `bisect` returns a success result exactly when the
recorded outcome at the final `left` index is `test_passed` and the recorded
outcome at the final `right` index is `test_failed`; the success result
carries the canonical-string pair of the versions at those two indices —
adjacent whenever the loop exited by window convergence, but possibly
non-adjacent when the loop aborted on an inconclusive outcome with both
window bounds already recorded.  Every other end state throws a TypeError
while reading `results[left].status` or `results[right].status`, so the
error-result returns of runner lines 661-664 are unreachable and no error
result ever carries the terminating cause. -/
theorem bisect_success_characterization (versions : List Version)
    (outcome : Nat → TestStatus) :
    ((finalState versions outcome).results (finalState versions outcome).left
          = some .test_passed
        ∧ (finalState versions outcome).results (finalState versions outcome).right
          = some .test_failed →
      ∃ vl vr, versions[(finalState versions outcome).left]? = some vl
        ∧ versions[(finalState versions outcome).right]? = some vr
        ∧ bisect versions outcome
          = .ok ⟨some (versionString vl, versionString vr), .bisect_succeeded⟩
        ∧ ((finalState versions outcome).right = (finalState versions outcome).left + 1
            ∨ ∃ e, (finalState versions outcome).result = some e ∧ errClass e))
    ∧ (¬ ((finalState versions outcome).results (finalState versions outcome).left
          = some .test_passed
        ∧ (finalState versions outcome).results (finalState versions outcome).right
          = some .test_failed) →
        bisect versions outcome = .error .typeError)
    ∧ (∀ r, bisect versions outcome = .ok r → r.status = .bisect_succeeded) := by
  have post := finalState_post versions outcome
  refine ⟨?_, ?_, ?_⟩
  · rintro ⟨hl, hr⟩
    rcases bisect_cases versions outcome with ⟨vl, vr, hvl, hvr, _, _, heq⟩ | ⟨hns, _⟩
    · refine ⟨vl, vr, hvl, hvr, heq, ?_⟩
      rcases post.exitCond with hex | hex
      · left
        have hne : (finalState versions outcome).left ≠ (finalState versions outcome).right := by
          intro he
          rw [he, hr] at hl
          exact absurd (Option.some_inj.mp hl) (by decide)
        have hle := post.inv.left_le
        omega
      · exact Or.inr hex
    · exact absurd ⟨hl, hr⟩ hns
  · intro hns
    rcases bisect_cases versions outcome with ⟨vl, vr, hvl, hvr, hl, hr, heq⟩ | ⟨_, heq⟩
    · exact absurd ⟨hl, hr⟩ hns
    · exact heq
  · intro r hok
    rcases bisect_cases versions outcome with ⟨vl, vr, hvl, hvr, hl, hr, heq⟩ | ⟨_, heq⟩
    · rw [heq] at hok
      have := Except.ok.inj hok
      rw [← this]
    · rw [heq] at hok
      exact absurd hok (by simp)

/-- Witness for C1 at a concrete degenerate end state: a one-version slice
is never tested, the success condition fails, and the session throws. -/
theorem bisect_success_characterization_witness :
    bisect [⟨1, 0, 0, []⟩] (fun _ => TestStatus.test_passed) = .error .typeError :=
  (bisect_success_characterization [⟨1, 0, 0, []⟩] (fun _ => TestStatus.test_passed)).2.1
    (by decide)

/-- Counterexample for C1 as stated: over a seven-version slice, midpoint 3
passes, midpoint 5 fails, then midpoint 4 is inconclusive and the loop
aborts; the end state still has `results[3] = passed` and
`results[5] = failed`, so `bisect` returns a success result whose pair
("3.0.0", "5.0.0") is not adjacent — "4.0.0" lies strictly between the two
in the ordered slice — and no error result carries the abort cause. -/
theorem bisect_nonadjacent_success_counterexample :
    bisect
        [⟨0, 0, 0, []⟩, ⟨1, 0, 0, []⟩, ⟨2, 0, 0, []⟩, ⟨3, 0, 0, []⟩,
          ⟨4, 0, 0, []⟩, ⟨5, 0, 0, []⟩, ⟨6, 0, 0, []⟩]
        (fun n => if n = 3 then .test_passed else if n = 5 then .test_failed else .test_error)
      = .ok ⟨some ("3.0.0", "5.0.0"), .bisect_succeeded⟩
    ∧ (⟨4, 0, 0, []⟩ : Version)
        ∈ [⟨0, 0, 0, []⟩, ⟨1, 0, 0, []⟩, ⟨2, 0, 0, []⟩, ⟨3, 0, 0, []⟩,
            ⟨4, 0, 0, []⟩, ⟨5, 0, 0, []⟩, ⟨6, 0, 0, []⟩]
    ∧ compareVersions ⟨3, 0, 0, []⟩ ⟨4, 0, 0, []⟩ = .lt
    ∧ compareVersions ⟨4, 0, 0, []⟩ ⟨5, 0, 0, []⟩ = .lt
    ∧ (fun n => if n = 3 then TestStatus.test_passed
        else if n = 5 then TestStatus.test_failed else TestStatus.test_error) 4
      = TestStatus.test_error := by
  decide

/-- C2 (amended): when the inclusive slice for the two endpoints has fewer
than 2 elements (including two endpoints resolving to the same version), the
loop guard fails immediately and no test is ever run; but instead of a
degenerate-range error result — no such check or error kind exists in the
code — the session throws a TypeError reading `results[0].status` of the
never-tested index 0. -/
theorem bisect_degenerate_range (catalog : List Version) (a b : String)
    (outcome : Nat → TestStatus) (h : (inRange catalog a b).length < 2) :
    bisectFull catalog a b outcome = .error .typeError
    ∧ (finalState (inRange catalog a b) outcome).testOrder = [] := by
  have hnoop : finalState (inRange catalog a b) outcome = initState (inRange catalog a b) := by
    unfold finalState
    apply bisectLoop_noop
    show ¬ ((initState (inRange catalog a b)).left + 1 < (initState (inRange catalog a b)).right)
    show ¬ (0 + 1 < (inRange catalog a b).length - 1)
    omega
  constructor
  · unfold bisectFull bisect
    rw [hnoop]
    rfl
  · rw [hnoop]
    rfl

/-- Witness for C2 at the empty slice of an empty catalog. -/
theorem bisect_degenerate_range_witness :
    bisectFull [] "a" "b" (fun _ => TestStatus.test_passed) = .error .typeError
    ∧ (finalState (inRange [] "a" "b") (fun _ => TestStatus.test_passed)).testOrder = [] :=
  bisect_degenerate_range [] "a" "b" (fun _ => TestStatus.test_passed) (by decide)

/-- Counterexample for C2 as stated: both endpoints resolve to the same
known version of a three-version catalog, the slice is a singleton, no test
runs — but the session rejects with a thrown TypeError rather than
returning a degenerate-range error result (`bisect` resolves to an
`Except.error`, not an `Except.ok` carrying any error status). -/
theorem bisect_degenerate_counterexample :
    inRange [⟨1, 0, 0, []⟩, ⟨2, 0, 0, []⟩, ⟨3, 0, 0, []⟩] "2.0.0" "2.0.0" = [⟨2, 0, 0, []⟩]
    ∧ bisectFull [⟨1, 0, 0, []⟩, ⟨2, 0, 0, []⟩, ⟨3, 0, 0, []⟩] "2.0.0" "2.0.0"
        (fun _ => TestStatus.test_passed)
      = .error .typeError
    ∧ (finalState (inRange [⟨1, 0, 0, []⟩, ⟨2, 0, 0, []⟩, ⟨3, 0, 0, []⟩] "2.0.0" "2.0.0")
        (fun _ => TestStatus.test_passed)).testOrder = [] := by
  decide

/-- C3 at the failing input: over a three-version slice the single midpoint
run (index 1) exits abnormally.  The loop stops at once with the outcome
recorded and `result` holding `test_error`, exactly as the claim demands —
but the function then throws a TypeError reading `results[0].status`
(index 0 was never tested) instead of returning the error result carrying
the `test_error` sub-kind that runner lines 661-663 were written to
produce. -/
theorem bisect_inconclusive_typeerror_eval :
    (finalState [⟨1, 0, 0, []⟩, ⟨2, 0, 0, []⟩, ⟨3, 0, 0, []⟩]
        (fun _ => TestStatus.test_error)).testOrder = [1]
    ∧ (finalState [⟨1, 0, 0, []⟩, ⟨2, 0, 0, []⟩, ⟨3, 0, 0, []⟩]
        (fun _ => TestStatus.test_error)).results 1 = some .test_error
    ∧ (finalState [⟨1, 0, 0, []⟩, ⟨2, 0, 0, []⟩, ⟨3, 0, 0, []⟩]
        (fun _ => TestStatus.test_error)).result = some .test_error
    ∧ bisect [⟨1, 0, 0, []⟩, ⟨2, 0, 0, []⟩, ⟨3, 0, 0, []⟩] (fun _ => TestStatus.test_error)
      = .error .typeError := by
  decide

/-- C9: over a slice of length at least 3, every midpoint computed while the
loop runs lies strictly inside the window and shrinks it in either the pass
or the fail direction (hence the loop terminates); consequently the tested
indices lie strictly between the first and last slice positions — the
endpoint versions are never executed — are pairwise distinct, and number at
most `length - 2`. -/
theorem bisect_midpoint_invariants (versions : List Version) (outcome : Nat → TestStatus)
    (h3 : 3 ≤ versions.length) :
    (∀ l r : Nat, l + 1 < r →
      l < jsMidpoint l r ∧ jsMidpoint l r < r
        ∧ r - jsMidpoint l r < r - l ∧ jsMidpoint l r - l < r - l)
    ∧ (∀ j ∈ (finalState versions outcome).testOrder, 0 < j ∧ j < versions.length - 1)
    ∧ (finalState versions outcome).testOrder.Nodup
    ∧ (finalState versions outcome).testOrder.length ≤ versions.length - 2 := by
  have post := finalState_post versions outcome
  refine ⟨?_, post.inv.orderBounds, post.inv.orderNodup, ?_⟩
  · intro l r hlr
    have h1 := (jsMidpoint_bounds hlr).1
    have h2 := (jsMidpoint_bounds hlr).2
    exact ⟨h1, h2, by omega, by omega⟩
  · have hnd := post.inv.orderNodup
    have hsub : (finalState versions outcome).testOrder.toFinset
        ⊆ Finset.Ioo 0 (versions.length - 1) := by
      intro j hj
      rw [List.mem_toFinset] at hj
      rcases post.inv.orderBounds j hj with ⟨h1, h2⟩
      exact Finset.mem_Ioo.mpr ⟨h1, h2⟩
    calc (finalState versions outcome).testOrder.length
        = (finalState versions outcome).testOrder.toFinset.card :=
          (List.toFinset_card_of_nodup hnd).symm
      _ ≤ (Finset.Ioo 0 (versions.length - 1)).card := Finset.card_le_card hsub
      _ = versions.length - 2 := by rw [Nat.card_Ioo]; omega

/-- Witness for C9 over the spec's five-version example
`[passed, passed, passed, failed, failed]`: the tested indices are distinct
and interior. -/
theorem bisect_midpoint_invariants_witness :
    (finalState [⟨1, 0, 0, []⟩, ⟨2, 0, 0, []⟩, ⟨3, 0, 0, []⟩, ⟨4, 0, 0, []⟩, ⟨5, 0, 0, []⟩]
      (fun n => if n ≤ 2 then TestStatus.test_passed
        else TestStatus.test_failed)).testOrder.Nodup :=
  (bisect_midpoint_invariants
    [⟨1, 0, 0, []⟩, ⟨2, 0, 0, []⟩, ⟨3, 0, 0, []⟩, ⟨4, 0, 0, []⟩, ⟨5, 0, 0, []⟩]
    (fun n => if n ≤ 2 then TestStatus.test_passed else TestStatus.test_failed)
    (by decide)).2.2.1

/-! ## Payload resolution per session (C8) -/

/-- A materialized fiddle (test payload); only its identity matters here. -/
structure Fiddle : Type where
  mainPath : String
deriving DecidableEq, Repr

/-- `FiddleSource`: an already-materialized `Fiddle` object, or a source
descriptor (gist id, git reference, folder, inline string). -/
inductive FiddleSource : Type where
  | fiddle (f : Fiddle)
  | descriptor (d : String)
deriving DecidableEq, Repr

/-- Modelled from the spec: `FiddleFactory.create` (src/fiddle.ts, which is
not among the sources under verification).  The spec describes the payload
resolver as materializing a source descriptor into a payload with an entry
path ("resolve(sourceDescriptor) -> payload with an entry path") and
requires the engine to "resolve the payload once for the whole session (not
per version)"; accordingly an argument that already is a payload passes
through unchanged without invoking the resolver.  The second component
counts the resolver invocations (materializations) performed by the call. -/
def fiddleCreate (materialize : String → Option Fiddle) :
    FiddleSource → Option Fiddle × Nat
  | .fiddle f => (some f, 0)
  | .descriptor d => (materialize d, 1)

/-- The bisect loop with the per-run payload handling made explicit: each
iteration's `run → spawn` chain calls `fiddleFactory.create(fiddle)` on the
already-materialized fiddle (runner line 609 delegating to line 460), which
materializes nothing. -/
def bisectLoopCount (outcome : Nat → TestStatus) (materialize : String → Option Fiddle)
    (f : Fiddle) : Nat → LoopState → Nat → LoopState × Nat
  | 0, s, count => (s, count)
  | fuel + 1, s, count =>
    if s.left + 1 < s.right then
      let mid := jsMidpoint s.left s.right
      let count2 := count + (fiddleCreate materialize (.fiddle f)).2
      let r := outcome mid
      let results := fun j => if j = mid then some r else s.results j
      let testOrder := s.testOrder ++ [mid]
      match r with
      | .test_passed =>
        bisectLoopCount outcome materialize f fuel ⟨mid, s.right, results, some r, testOrder⟩
          count2
      | .test_failed =>
        bisectLoopCount outcome materialize f fuel ⟨s.left, mid, results, some r, testOrder⟩
          count2
      | .test_error => (⟨s.left, s.right, results, some r, testOrder⟩, count2)
      | .system_error => (⟨s.left, s.right, results, some r, testOrder⟩, count2)
    else (s, count)

/-- `Runner.bisect` with the payload resolutions counted: the session
resolves `fiddleIn` once up front (runner line 580; an unresolvable source
throws `Invalid fiddle`, line 581) and passes the materialized fiddle to
every run.  Returns the session result paired with the total number of
resolver invocations. -/
def bisectCounting (versions : List Version) (outcome : Nat → TestStatus)
    (materialize : String → Option Fiddle) (fiddleIn : FiddleSource) :
    Except JsError BisectResult × Nat :=
  match fiddleCreate materialize fiddleIn with
  | (none, c) => (.error .invalidFiddle, c)
  | (some f, c) =>
    let sc := bisectLoopCount outcome materialize f versions.length (initState versions) c
    (bisectFinish versions sc.1, sc.2)

/-- C8: the payload resolver runs exactly once per bisect session started
from a source descriptor, independent of the outcome oracle and hence of
the number of test executions: the per-version runs hand the materialized
fiddle back to the factory, which resolves nothing further.
(Spec-modelled: `FiddleFactory.create` itself lives in src/fiddle.ts,
outside the verified sources; see `fiddleCreate`.) -/
theorem bisect_payload_resolved_once (versions : List Version)
    (outcome : Nat → TestStatus) (materialize : String → Option Fiddle) (d : String) :
    (bisectCounting versions outcome materialize (.descriptor d)).2 = 1 := by
  have hloop : ∀ (fuel : Nat) (s : LoopState) (c : Nat) (f : Fiddle),
      (bisectLoopCount outcome materialize f fuel s c).2 = c := by
    intro fuel
    induction fuel with
    | zero => intro s c f; rfl
    | succ n ih =>
      intro s c f
      simp only [bisectLoopCount]
      by_cases hlr : s.left + 1 < s.right
      · rw [if_pos hlr]
        rcases hr : outcome (jsMidpoint s.left s.right) with _ | _ | _ | _ <;>
          simp [fiddleCreate, ih]
      · rw [if_neg hlr]
  unfold bisectCounting
  rcases hm : materialize d with _ | f
  · simp [fiddleCreate, hm]
  · simp [fiddleCreate, hm, hloop]
